import Mathlib

/-!
Verification of the self-contained core logic of the deep-crawl CLI
(`src/main.py`): the section filter, the cookie and auth-header parsers,
the output formatter and the output-filename generator.

Python strings are modelled as lists of characters (`Str`).  Python's
`str.split(sep)` / `sep.join`, substring containment (`in`), `strip`,
`lstrip`, `lower` and `replace` are embedded as executable functions on
`Str`.  `Char.toLower` / `Char.isWhitespace` model Python's per-character
lowercasing and whitespace test on the ASCII range, which is all the
claims exercise.
-/

set_option autoImplicit false

namespace DeepCrawl

/-- A Python string, modelled as its list of characters. -/
abbrev Str := List Char

/-- Helper for `splitOnChar`: prepend a character onto the first chunk. -/
def consHead (c : Char) : List Str → List Str
  | [] => [[c]]
  | r :: rs => (c :: r) :: rs

/-- Python `s.split(sep)` for a one-character separator `sep`:
`"".split(sep) == [""]`, and the separator never appears in a chunk. -/
def splitOnChar (sep : Char) : Str → List Str
  | [] => [[]]
  | c :: cs => if c = sep then [] :: splitOnChar sep cs else consHead c (splitOnChar sep cs)

/-- Python `sep.join(chunks)` for a one-character separator. -/
def joinLines (sep : Char) : List Str → Str
  | [] => []
  | [l] => l
  | l :: l2 :: ls => l ++ sep :: joinLines sep (l2 :: ls)

/-- Python substring containment `needle in hay`. -/
def pyIn (needle : Str) : Str → Bool
  | [] => needle.isEmpty
  | c :: t => needle.isPrefixOf (c :: t) || pyIn needle t

/-- Python `s.lstrip()` (whitespace on the left). -/
def stripLeft (s : Str) : Str := s.dropWhile Char.isWhitespace

/-- Python `s.rstrip()` (whitespace on the right). -/
def stripRight (s : Str) : Str := (s.reverse.dropWhile Char.isWhitespace).reverse

/-- Python `s.strip()` (whitespace on both sides). -/
def pyStrip (s : Str) : Str := stripRight (stripLeft s)

/-- Python `s.lower()`, per character. -/
def pyLower (s : Str) : Str := s.map Char.toLower

/-- Python `line.lstrip("#")`: drop every leading `'#'`. -/
def lstripHash (s : Str) : Str := s.dropWhile (fun c => c == '#')

/-- Python `line.startswith("#")`. -/
def startsWithHash : Str → Bool
  | [] => false
  | c :: _ => c == '#'

/-- `parse_sections` (src/main.py:159-163): split a comma-separated string
into stripped, lowercased, non-empty keywords; `None` or `""` give `[]`. -/
def parse_sections : Option Str → List Str
  | none => []
  | some s =>
    if s.isEmpty then []
    else ((splitOnChar ',' s).filter (fun seg => !(pyStrip seg).isEmpty)).map
      (fun seg => pyLower (pyStrip seg))

/-- The header text of a line, as computed in `filter_sections`
(src/main.py:394): `line.lstrip("#").strip().lower()`. -/
def headerText (line : Str) : Str := pyLower (pyStrip (lstripHash line))

/-- `any(section in header_text for section in kws)` (src/main.py:398-404). -/
def headerMatches (kws : List Str) (line : Str) : Bool :=
  kws.any (fun kw => pyIn kw (headerText line))

/-- The `include_current` value recomputed at a header line
(src/main.py:396-406): the include list takes priority, then the exclude
list, else `true`. -/
def headerDecision (incl excl : List Str) (line : Str) : Bool :=
  if !incl.isEmpty then headerMatches incl line
  else if !excl.isEmpty then !headerMatches excl line
  else true

/-- The `include_current` value after seeing `line` with previous value
`cur`: recomputed on a header line, inherited otherwise. -/
def nextState (incl excl : List Str) (cur : Bool) (line : Str) : Bool :=
  if startsWithHash line then headerDecision incl excl line else cur

/-- The loop of `filter_sections` (src/main.py:391-409): scan the lines,
update `include_current`, and keep a line iff the updated flag is true. -/
def filterLines (incl excl : List Str) : Bool → List Str → List Str
  | _, [] => []
  | cur, l :: ls =>
    (if nextState incl excl cur l then [l] else []) ++
      filterLines incl excl (nextState incl excl cur l) ls

/-- `filter_sections` (src/main.py:374-411): empty content is returned as
is; otherwise split into lines, run the scan with `include_current = true`,
and re-join with newlines. -/
def filter_sections (content : Str) (include_sections exclude_sections : Option Str) : Str :=
  if content.isEmpty then content
  else joinLines '\n'
    (filterLines (parse_sections include_sections) (parse_sections exclude_sections) true
      (splitOnChar '\n' content))

/-- The body of a section: the lines up to (not including) the next header. -/
def takeBody (ls : List Str) : List Str := ls.takeWhile (fun l => !startsWithHash l)

/-- The rest of the document from the next header line on. -/
def dropBody (ls : List Str) : List Str := ls.dropWhile (fun l => !startsWithHash l)

/-- Fuel-driven worker for the spec-side section filters: emit, for each
header line satisfying `keep`, the header together with its body, and
nothing else (lines before the first header are skipped).  The fuel only
makes the recursion structural; any fuel at least the list length gives
the same result. -/
def specSectionGo (keep : Str → Bool) : Nat → List Str → List Str
  | 0, _ => []
  | _ + 1, [] => []
  | f + 1, l :: ls =>
    if startsWithHash l then
      (if keep l then l :: takeBody ls else []) ++ specSectionGo keep f (dropBody ls)
    else specSectionGo keep f ls

/-- Spec-side include filter, from the spec's words: exactly the header
lines whose text contains at least one include keyword, together with the
body lines following each such header up to the next header line, and
nothing else. -/
def specIncludeFilter (incl : List Str) (ls : List Str) : List Str :=
  specSectionGo (fun l => headerMatches incl l) ls.length ls

/-- Spec-side exclude filter, from the spec's words: exactly the sections
(header plus body up to the next header) whose header text contains none
of the exclude keywords, and nothing else. -/
def specExcludeFilter (excl : List Str) (ls : List Str) : List Str :=
  specSectionGo (fun l => !headerMatches excl l) ls.length ls

/-- The sequence of lines of a document: the empty document has no lines;
a non-empty document is split on newlines (Python `str.split("\n")`). -/
def linesOf (s : Str) : List Str :=
  if s.isEmpty then [] else splitOnChar '\n' s

/-! ### Output filename generation (src/main.py:146-156) -/

/-- Modelled from `urllib.parse.urlparse(url).netloc`: the run of
characters after the first `"//"` and before the next `'/'`, `'?'` or
`'#'`; empty when the URL has no `"//"`. -/
def afterDoubleSlash : Str → Option Str
  | [] => none
  | '/' :: '/' :: rest => some rest
  | _ :: rest => afterDoubleSlash rest

/-- The network location of a URL (see `afterDoubleSlash`). -/
def netlocOf (url : Str) : Str :=
  match afterDoubleSlash url with
  | none => []
  | some rest => rest.takeWhile (fun c => !(c == '/' || c == '?' || c == '#'))

/-- Fuel-driven worker for Python `s.replace(pat, rep)` with a non-empty
pattern: scan left to right, replacing each (non-overlapping) occurrence.
Fuel `s.length` is always enough, since each step consumes at least one
character. -/
def pyReplaceGo (pat rep : Str) : Nat → Str → Str
  | 0, rest => rest
  | _ + 1, [] => []
  | f + 1, c :: cs =>
    if !pat.isEmpty && pat.isPrefixOf (c :: cs) then
      rep ++ pyReplaceGo pat rep f (cs.drop (pat.length - 1))
    else c :: pyReplaceGo pat rep f cs

/-- Python `s.replace(pat, rep)` for a non-empty pattern. -/
def pyReplace (pat rep s : Str) : Str := pyReplaceGo pat rep s.length s

/-- A regex word character (`\w`) on the ASCII range: letter, digit or
underscore. -/
def isWordChar (c : Char) : Bool := c.isAlphanum || c == '_'

/-- `generate_output_filename` (src/main.py:146-156): take the netloc,
delete `"www."`, turn dots into hyphens, delete characters matching
`[^\w\-]` (everything that is neither a word character nor a hyphen),
prepend `"docs-"` unless the name already contains `"docs"`, and append
the extension for the format.  An unknown format raises a `KeyError` in
the Python code, modelled as `none`. -/
def generate_output_filename (url format : Str) : Option Str :=
  let domain0 := pyReplace ['.'] ['-'] (pyReplace "www.".toList [] (netlocOf url))
  let domain1 := domain0.filter (fun c => isWordChar c || c == '-')
  let ext :=
    if format = "markdown".toList then some "md".toList
    else if format = "json".toList then some "json".toList
    else if format = "xml".toList then some "xml".toList
    else none
  match ext with
  | none => none
  | some e =>
    let domain2 := if pyIn "docs".toList domain1 then domain1 else "docs-".toList ++ domain1
    some (domain2 ++ '.' :: e)

/-! ### Cookie and auth-header parsers (src/main.py:166-207) -/

/-- A cookie record as built by `parse_cookies` (src/main.py:185-192). -/
structure Cookie where
  name : Str
  value : Str
  domain : Str
  path : Str
deriving DecidableEq, Repr

/-- `parse_cookies` (src/main.py:166-194) on an inline cookie string,
i.e. when the argument is non-empty and does not name an existing file
(the file branch reads the filesystem and is outside this model): split
on `';'`, split each segment on the first `'='` (segments without `'='`
are skipped), strip name and value, use an empty domain and path `"/"`;
an empty string or zero valid segments yield `none`. -/
def parse_cookies_inline (cookies_str : Str) : Option (List Cookie) :=
  if cookies_str.isEmpty then none
  else
    let cookies := (splitOnChar ';' cookies_str).filterMap (fun cookie =>
      if pyIn ['='] cookie then
        some ⟨pyStrip (cookie.takeWhile (fun c => !(c == '='))),
              pyStrip ((cookie.dropWhile (fun c => !(c == '='))).drop 1),
              [], ['/']⟩
      else none)
    if cookies.isEmpty then none else some cookies

/-- `parse_auth_header` (src/main.py:197-207): `None` or `""` give `none`;
a string containing `':'` is split on the first `':'` into a stripped
key/value pair; otherwise a warning is printed and `none` returned (the
function is total: no exception escapes). -/
def parse_auth_header : Option Str → Option (Str × Str)
  | none => none
  | some s =>
    if s.isEmpty then none
    else if pyIn [':'] s then
      some (pyStrip (s.takeWhile (fun c => !(c == ':'))),
            pyStrip ((s.dropWhile (fun c => !(c == ':'))).drop 1))
    else none

/-! ### Output formatting (src/main.py:210-228) -/

/-- The `_crawl_metadata` record attached to a result
(src/main.py:323-328), as read back by `format_results` through
`metadata.get(key, "Unknown")`: each field is optional, with the string
`"Unknown"` as default.  `page_count` is modelled by its printed form. -/
structure CrawlMetadata where
  url : Option Str
  timestamp : Option Str
  page_count : Option Str
  strategy : Option Str

/-- A successful crawl result as consumed by `format_results`: its
markdown body and its attached metadata. -/
structure CrawlResult where
  markdown : Str
  crawl_metadata : CrawlMetadata

/-- The metadata header block built in `format_result`
(src/main.py:216-224): title, the four fields, and the `---` separator. -/
def metadataHeader (m : CrawlMetadata) : Str :=
  "# Documentation Crawl Report\n\n**Source:** ".toList ++ m.url.getD "Unknown".toList
    ++ "\n**Crawled:** ".toList ++ m.timestamp.getD "Unknown".toList
    ++ "\n**Pages:** ".toList ++ m.page_count.getD "Unknown".toList
    ++ "\n**Strategy:** ".toList ++ m.strategy.getD "Unknown".toList
    ++ "\n\n---\n\n".toList

/-- The inner `format_result` of `format_results` (src/main.py:213-226):
the markdown body, prefixed by the metadata header block when metadata
inclusion is on. -/
def format_result (include_metadata : Bool) (r : CrawlResult) : Str :=
  if include_metadata then metadataHeader r.crawl_metadata ++ r.markdown else r.markdown

/-- `format_results` (src/main.py:210-228): format each result and join
the texts with `"\n"`. -/
def format_results (results : List CrawlResult) (include_metadata : Bool) : Str :=
  joinLines '\n' (results.map (format_result include_metadata))

/-! ### Helper lemmas about splitting and joining -/

theorem isEmpty_false_of_ne_nil {α : Type} {l : List α} (h : l ≠ []) : l.isEmpty = false := by
  cases l with
  | nil => exact absurd rfl h
  | cons a as => rfl

theorem consHead_ne_nil (c : Char) (L : List Str) : consHead c L ≠ [] := by
  cases L <;> simp [consHead]

theorem splitOnChar_ne_nil (sep : Char) (s : Str) : splitOnChar sep s ≠ [] := by
  cases s with
  | nil => simp [splitOnChar]
  | cons c cs =>
    simp only [splitOnChar]
    split
    · simp
    · exact consHead_ne_nil c _

theorem joinLines_cons (sep : Char) (x : Str) (L : List Str) (h : L ≠ []) :
    joinLines sep (x :: L) = x ++ sep :: joinLines sep L := by
  match L with
  | [] => exact absurd rfl h
  | l :: ls => rfl

theorem joinLines_consHead (sep c : Char) (L : List Str) (h : L ≠ []) :
    joinLines sep (consHead c L) = c :: joinLines sep L := by
  match L with
  | [] => exact absurd rfl h
  | [l] => rfl
  | l :: l2 :: ls => rfl

theorem joinLines_splitOnChar (sep : Char) (s : Str) :
    joinLines sep (splitOnChar sep s) = s := by
  induction s with
  | nil => rfl
  | cons c cs ih =>
    simp only [splitOnChar]
    by_cases h : c = sep
    · rw [if_pos h, joinLines_cons sep [] _ (splitOnChar_ne_nil sep cs), ih, h]
      rfl
    · rw [if_neg h, joinLines_consHead sep c _ (splitOnChar_ne_nil sep cs), ih]

theorem not_mem_of_mem_splitOnChar (sep : Char) (s : Str) (l : Str)
    (hl : l ∈ splitOnChar sep s) : sep ∉ l := by
  induction s generalizing l with
  | nil =>
    simp [splitOnChar] at hl
    subst hl
    simp
  | cons c cs ih =>
    simp only [splitOnChar] at hl
    by_cases h : c = sep
    · rw [if_pos h] at hl
      rcases List.mem_cons.mp hl with h1 | h1
      · subst h1; simp
      · exact ih l h1
    · rw [if_neg h] at hl
      rcases hsp : splitOnChar sep cs with _ | ⟨r, rs⟩
      · exact absurd hsp (splitOnChar_ne_nil sep cs)
      · rw [hsp] at hl
        simp only [consHead] at hl
        rcases List.mem_cons.mp hl with h1 | h1
        · subst h1
          intro hmem
          rcases List.mem_cons.mp hmem with h2 | h2
          · exact h h2.symm
          · exact ih r (by rw [hsp]; exact List.mem_cons_self r rs) h2
        · exact ih l (by rw [hsp]; exact List.mem_cons_of_mem r h1)

theorem splitOnChar_of_not_mem (sep : Char) (l : Str) (h : sep ∉ l) :
    splitOnChar sep l = [l] := by
  induction l with
  | nil => rfl
  | cons c cs ih =>
    have hc : ¬ c = sep := fun hh => h (List.mem_cons.mpr (Or.inl hh.symm))
    simp only [splitOnChar, if_neg hc]
    rw [ih (fun hm => h (List.mem_cons_of_mem c hm))]
    rfl

theorem splitOnChar_append (sep : Char) (l rest : Str) (h : sep ∉ l) :
    splitOnChar sep (l ++ sep :: rest) = l :: splitOnChar sep rest := by
  induction l with
  | nil =>
    show splitOnChar sep (sep :: rest) = [] :: splitOnChar sep rest
    simp [splitOnChar]
  | cons c cs ih =>
    have hc : ¬ c = sep := fun hh => h (List.mem_cons.mpr (Or.inl hh.symm))
    show splitOnChar sep (c :: (cs ++ sep :: rest)) = (c :: cs) :: splitOnChar sep rest
    simp only [splitOnChar, if_neg hc]
    rw [ih (fun hm => h (List.mem_cons_of_mem c hm))]
    rfl

theorem splitOnChar_joinLines (sep : Char) :
    ∀ L : List Str, L ≠ [] → (∀ l ∈ L, sep ∉ l) →
      splitOnChar sep (joinLines sep L) = L
  | [], hne, _ => absurd rfl hne
  | [l], _, h => splitOnChar_of_not_mem sep l (h l (List.mem_cons_self l []))
  | l :: l2 :: ls2, _, h => by
    rw [joinLines_cons sep l (l2 :: ls2) (by simp),
      splitOnChar_append sep l _ (h l (List.mem_cons_self _ _)),
      splitOnChar_joinLines sep (l2 :: ls2) (by simp)
        (fun x hx => h x (List.mem_cons_of_mem l hx))]

/-! ### Helper lemmas about the section-filter scan -/

theorem filterLines_sublist (incl excl : List Str) :
    ∀ (cur : Bool) (L : List Str), List.Sublist (filterLines incl excl cur L) L
  | _, [] => List.Sublist.refl []
  | cur, l :: ls => by
    simp only [filterLines]
    by_cases h : nextState incl excl cur l = true
    · rw [if_pos h]
      exact (filterLines_sublist incl excl _ ls).cons₂ l
    · rw [if_neg h]
      exact (filterLines_sublist incl excl _ ls).cons l

theorem filterLines_of_no_header (incl excl : List Str) :
    ∀ L : List Str, (∀ l ∈ L, startsWithHash l = false) →
      filterLines incl excl true L = L
  | [], _ => rfl
  | l :: ls, h => by
    have hn : nextState incl excl true l = true := by
      simp [nextState, h l (List.mem_cons_self l ls)]
    simp [filterLines, hn, filterLines_of_no_header incl excl ls
      (fun x hx => h x (List.mem_cons_of_mem l hx))]

theorem filterLines_filterLines (incl excl : List Str) :
    ∀ (L : List Str) (cur c2 : Bool), (cur = true → c2 = true) →
      filterLines incl excl c2 (filterLines incl excl cur L)
        = filterLines incl excl cur L
  | [], _, _, _ => rfl
  | l :: ls, cur, c2, hc => by
    cases hn : nextState incl excl cur l with
    | true =>
      have hn2 : nextState incl excl c2 l = true := by
        by_cases hh : startsWithHash l = true
        · have hd : headerDecision incl excl l = true := by
            simpa [nextState, hh] using hn
          simp [nextState, hh, hd]
        · have hcur : cur = true := by simpa [nextState, hh] using hn
          simp [nextState, hh, hc hcur]
      have e1 : filterLines incl excl cur (l :: ls)
          = l :: filterLines incl excl true ls := by
        simp [filterLines, hn]
      have e2 : filterLines incl excl c2 (l :: filterLines incl excl true ls)
          = l :: filterLines incl excl true (filterLines incl excl true ls) := by
        simp [filterLines, hn2]
      rw [e1, e2, filterLines_filterLines incl excl ls true true (fun h => h)]
    | false =>
      have e1 : filterLines incl excl cur (l :: ls)
          = filterLines incl excl false ls := by
        simp [filterLines, hn]
      rw [e1, filterLines_filterLines incl excl ls false c2 (fun h => nomatch h)]

theorem specSectionGo_nil (keep : Str → Bool) (f : Nat) :
    specSectionGo keep f [] = [] := by
  cases f <;> rfl

theorem length_dropBody_le : ∀ ls : List Str, (dropBody ls).length ≤ ls.length
  | [] => Nat.le_refl 0
  | l :: ls => by
    by_cases h : startsWithHash l = true
    · simp [dropBody, h]
    · have := length_dropBody_le ls
      simp only [dropBody, List.dropWhile] at this ⊢
      simp only [h, Bool.not_false]
      simpa using Nat.le_succ_of_le this

theorem specSectionGo_fuel (keep : Str → Bool) :
    ∀ (f g : Nat) (L : List Str), L.length ≤ f → L.length ≤ g →
      specSectionGo keep f L = specSectionGo keep g L
  | f, g, [], _, _ => by rw [specSectionGo_nil, specSectionGo_nil]
  | 0, _, l :: ls, hf, _ => absurd hf (by simp)
  | _ + 1, 0, l :: ls, _, hg => absurd hg (by simp)
  | f + 1, g + 1, l :: ls, hf, hg => by
    have hf' : ls.length ≤ f := by simp only [List.length_cons] at hf; omega
    have hg' : ls.length ≤ g := by simp only [List.length_cons] at hg; omega
    by_cases hh : startsWithHash l = true
    · simp only [specSectionGo, hh, if_true]
      rw [specSectionGo_fuel keep f g (dropBody ls)
        (Nat.le_trans (length_dropBody_le ls) hf')
        (Nat.le_trans (length_dropBody_le ls) hg')]
    · simp only [specSectionGo, hh, if_false]
      exact specSectionGo_fuel keep f g ls hf' hg'

theorem filterLines_eq_specGo (incl excl : List Str) (keep : Str → Bool)
    (hk : ∀ l, startsWithHash l = true → headerDecision incl excl l = keep l) :
    ∀ (L : List Str) (cur : Bool) (f : Nat), L.length ≤ f →
      filterLines incl excl cur L
        = (if cur then takeBody L else []) ++ specSectionGo keep f (dropBody L)
  | [], cur, f, _ => by
    cases cur <;> simp [filterLines, takeBody, dropBody, specSectionGo_nil]
  | l :: ls, cur, f, hf => by
    cases hh : startsWithHash l with
    | true =>
      match f, hf with
      | 0, hf => exact absurd hf (by simp)
      | f' + 1, hf =>
        have hlen : ls.length ≤ f' := by simp only [List.length_cons] at hf; omega
        have hd : nextState incl excl cur l = keep l := by
          simp [nextState, hh, hk l hh]
        have e1 : filterLines incl excl cur (l :: ls)
            = (if keep l = true then [l] else []) ++ filterLines incl excl (keep l) ls := by
          simp only [filterLines, hd]
        rw [e1, filterLines_eq_specGo incl excl keep hk ls (keep l) f' hlen]
        have e2 : takeBody (l :: ls) = [] := by simp [takeBody, hh]
        have e3 : dropBody (l :: ls) = l :: ls := by simp [dropBody, hh]
        have e4 : specSectionGo keep (f' + 1) (l :: ls)
            = (if keep l = true then l :: takeBody ls else [])
              ++ specSectionGo keep f' (dropBody ls) := by
          simp [specSectionGo, hh]
        rw [e2, e3, e4]
        cases hkl : keep l <;> cases cur <;> simp [hkl]
    | false =>
      have hlen : ls.length ≤ f := by simp only [List.length_cons] at hf; omega
      have hd : nextState incl excl cur l = cur := by simp [nextState, hh]
      have e1 : filterLines incl excl cur (l :: ls)
          = (if cur = true then [l] else []) ++ filterLines incl excl cur ls := by
        simp only [filterLines, hd]
      rw [e1, filterLines_eq_specGo incl excl keep hk ls cur f hlen]
      have e2 : takeBody (l :: ls) = l :: takeBody ls := by simp [takeBody, hh]
      have e3 : dropBody (l :: ls) = dropBody ls := by simp [dropBody, hh]
      rw [e2, e3]
      cases cur <;> simp

theorem pyIn_singleton (c : Char) : ∀ s : Str, (pyIn [c] s = true ↔ c ∈ s)
  | [] => by simp [pyIn]
  | d :: t => by
    simp [pyIn, List.isPrefixOf, pyIn_singleton c t]

theorem takeWhile_append_cons (p : Char → Bool) (x : Char) (b : Str) :
    ∀ a : Str, (∀ c ∈ a, p c = true) → p x = false →
      (a ++ x :: b).takeWhile p = a
  | [], _, hx => by simp [List.takeWhile_cons, hx]
  | c :: cs, ha, hx => by
    have hc : p c = true := ha c (List.mem_cons_self c cs)
    simp only [List.cons_append, List.takeWhile_cons, hc, if_true]
    rw [takeWhile_append_cons p x b cs (fun d hd => ha d (List.mem_cons_of_mem c hd)) hx]

theorem dropWhile_append_cons (p : Char → Bool) (x : Char) (b : Str) :
    ∀ a : Str, (∀ c ∈ a, p c = true) → p x = false →
      (a ++ x :: b).dropWhile p = x :: b
  | [], _, hx => by simp [List.dropWhile_cons, hx]
  | c :: cs, ha, hx => by
    have hc : p c = true := ha c (List.mem_cons_self c cs)
    simp only [List.cons_append, List.dropWhile_cons, hc, if_true]
    exact dropWhile_append_cons p x b cs (fun d hd => ha d (List.mem_cons_of_mem c hd)) hx

/-! ### The claims -/

/-- C1 (amended): with a non-empty include keyword list (and any exclude
list), `filter_sections` returns the lines preceding the first header line
unchanged, followed by exactly the header lines whose lowercased stripped
text contains at least one include keyword as a substring, together with
the body lines following each such header up to the next header line, and
nothing else. -/
theorem C1_include_filter (content : Str) (inc exc : Option Str)
    (h : parse_sections inc ≠ []) :
    filter_sections content inc exc
      = joinLines '\n' (takeBody (splitOnChar '\n' content)
          ++ specIncludeFilter (parse_sections inc)
              (dropBody (splitOnChar '\n' content))) := by
  have hk : ∀ l, startsWithHash l = true →
      headerDecision (parse_sections inc) (parse_sections exc) l
        = headerMatches (parse_sections inc) l := by
    intro l _
    simp [headerDecision, isEmpty_false_of_ne_nil h]
  rcases content with _ | ⟨c, cs⟩
  · rfl
  · have hL : filter_sections (c :: cs) inc exc
        = joinLines '\n' (filterLines (parse_sections inc) (parse_sections exc) true
            (splitOnChar '\n' (c :: cs))) := rfl
    rw [hL, filterLines_eq_specGo _ _ _ hk _ true _ (Nat.le_refl _),
      specSectionGo_fuel _ _ (dropBody (splitOnChar '\n' (c :: cs))).length _
        (Nat.le_trans (Nat.le_refl _) (length_dropBody_le _)) (Nat.le_refl _)]
    rfl

/-- C1 witness: a concrete run of the amended C1. -/
theorem C1_include_filter_witness :
    parse_sections (some "api".toList) ≠ [] ∧
      filter_sections "x\n# api\ny\n# blog\nz".toList (some "api".toList)
          (some "blog".toList)
        = joinLines '\n' (takeBody (splitOnChar '\n' "x\n# api\ny\n# blog\nz".toList)
            ++ specIncludeFilter (parse_sections (some "api".toList))
                (dropBody (splitOnChar '\n' "x\n# api\ny\n# blog\nz".toList))) :=
  ⟨by decide, C1_include_filter _ _ _ (by decide)⟩

/-- C1 counterexample: on `"intro\n# apple"` with include list `"zebra"`,
the code keeps the pre-header line `"intro"`, while the claim says the
output consists of matching sections and nothing else (here: nothing). -/
theorem C1_counterexample :
    filter_sections "intro\n# apple".toList (some "zebra".toList) none
      ≠ joinLines '\n' (specIncludeFilter (parse_sections (some "zebra".toList))
          (splitOnChar '\n' "intro\n# apple".toList)) := by decide

/-- C2 (amended): with an empty include list and a non-empty exclude
keyword list, `filter_sections` returns the lines preceding the first
header line unchanged, followed by exactly the sections (header line plus
following body lines up to the next header) whose lowercased header text
contains none of the exclude keywords as a substring, and nothing else. -/
theorem C2_exclude_filter (content : Str) (inc exc : Option Str)
    (hinc : parse_sections inc = []) (hexc : parse_sections exc ≠ []) :
    filter_sections content inc exc
      = joinLines '\n' (takeBody (splitOnChar '\n' content)
          ++ specExcludeFilter (parse_sections exc)
              (dropBody (splitOnChar '\n' content))) := by
  have hk : ∀ l, startsWithHash l = true →
      headerDecision (parse_sections inc) (parse_sections exc) l
        = !headerMatches (parse_sections exc) l := by
    intro l _
    simp [headerDecision, hinc, isEmpty_false_of_ne_nil hexc]
  rcases content with _ | ⟨c, cs⟩
  · rfl
  · have hL : filter_sections (c :: cs) inc exc
        = joinLines '\n' (filterLines (parse_sections inc) (parse_sections exc) true
            (splitOnChar '\n' (c :: cs))) := rfl
    rw [hL, filterLines_eq_specGo _ _ _ hk _ true _ (Nat.le_refl _),
      specSectionGo_fuel _ _ (dropBody (splitOnChar '\n' (c :: cs))).length _
        (Nat.le_trans (Nat.le_refl _) (length_dropBody_le _)) (Nat.le_refl _)]
    rfl

/-- C2 witness: a concrete run of the amended C2. -/
theorem C2_exclude_filter_witness :
    parse_sections (none : Option Str) = [] ∧
      parse_sections (some "bad".toList) ≠ [] ∧
      filter_sections "x\n# good\ny\n# bad\nz".toList none (some "bad".toList)
        = joinLines '\n' (takeBody (splitOnChar '\n' "x\n# good\ny\n# bad\nz".toList)
            ++ specExcludeFilter (parse_sections (some "bad".toList))
                (dropBody (splitOnChar '\n' "x\n# good\ny\n# bad\nz".toList))) :=
  ⟨by decide, by decide, C2_exclude_filter _ _ _ (by decide) (by decide)⟩

/-- C2 counterexample: on `"intro\n# bad"` with exclude list `"bad"`, the
code keeps the pre-header line `"intro"`, while the claim says the output
consists of the non-excluded sections and nothing else (here: nothing). -/
theorem C2_counterexample :
    filter_sections "intro\n# bad".toList none (some "bad".toList)
      ≠ joinLines '\n' (specExcludeFilter (parse_sections (some "bad".toList))
          (splitOnChar '\n' "intro\n# bad".toList)) := by decide

/-- C3: on a document none of whose lines starts with `'#'`,
`filter_sections` returns the document unchanged, for every include and
exclude argument; in particular the empty document yields the empty
output. -/
theorem C3_no_header_unchanged (content : Str) (inc exc : Option Str)
    (h : ∀ l ∈ splitOnChar '\n' content, startsWithHash l = false) :
    filter_sections content inc exc = content := by
  rcases content with _ | ⟨c, cs⟩
  · rfl
  · have hL : filter_sections (c :: cs) inc exc
        = joinLines '\n' (filterLines (parse_sections inc) (parse_sections exc) true
            (splitOnChar '\n' (c :: cs))) := rfl
    rw [hL, filterLines_of_no_header _ _ _ h, joinLines_splitOnChar]

/-- C3 witness: concrete runs of C3, on a header-free document and on the
empty document. -/
theorem C3_no_header_unchanged_witness :
    filter_sections "hello\nworld".toList (some "a".toList) (some "b".toList)
        = "hello\nworld".toList
      ∧ filter_sections [] (some "a".toList) none = [] :=
  ⟨C3_no_header_unchanged _ _ _ (by decide), C3_no_header_unchanged _ _ _ (by decide)⟩

/-- C4: `filter_sections` is idempotent: re-filtering its output with the
same include/exclude arguments returns the output unchanged. -/
theorem C4_idempotent (content : Str) (inc exc : Option Str) :
    filter_sections (filter_sections content inc exc) inc exc
      = filter_sections content inc exc := by
  rcases content with _ | ⟨c, cs⟩
  · rfl
  · have h1 : filter_sections (c :: cs) inc exc
        = joinLines '\n' (filterLines (parse_sections inc) (parse_sections exc) true
            (splitOnChar '\n' (c :: cs))) := rfl
    rw [h1]
    rcases hjo : joinLines '\n' (filterLines (parse_sections inc) (parse_sections exc) true
        (splitOnChar '\n' (c :: cs))) with _ | ⟨d, ds⟩
    · rfl
    · have hne : filterLines (parse_sections inc) (parse_sections exc) true
          (splitOnChar '\n' (c :: cs)) ≠ [] := by
        intro h0
        rw [h0] at hjo
        simp [joinLines] at hjo
      have hnl : ∀ l ∈ filterLines (parse_sections inc) (parse_sections exc) true
          (splitOnChar '\n' (c :: cs)), '\n' ∉ l := by
        intro l hl
        exact not_mem_of_mem_splitOnChar '\n' (c :: cs) l
          ((filterLines_sublist _ _ true _).subset hl)
      have h2 : filter_sections (d :: ds) inc exc
          = joinLines '\n' (filterLines (parse_sections inc) (parse_sections exc) true
              (splitOnChar '\n' (d :: ds))) := rfl
      rw [h2, ← hjo, splitOnChar_joinLines '\n' _ hne hnl,
        filterLines_filterLines _ _ _ true true (fun h => h)]

/-- C10: the lines of the output of `filter_sections` form a subsequence
of the lines of the input: every output line is an input line, in the
original relative order, with nothing duplicated or introduced.  A
document's lines are its newline-separated chunks; the empty document has
no lines. -/
theorem C10_output_lines_sublist (content : Str) (inc exc : Option Str) :
    List.Sublist (linesOf (filter_sections content inc exc)) (linesOf content) := by
  rcases content with _ | ⟨c, cs⟩
  · exact List.Sublist.refl _
  · have h1 : filter_sections (c :: cs) inc exc
        = joinLines '\n' (filterLines (parse_sections inc) (parse_sections exc) true
            (splitOnChar '\n' (c :: cs))) := rfl
    rw [h1]
    rcases hjo : joinLines '\n' (filterLines (parse_sections inc) (parse_sections exc) true
        (splitOnChar '\n' (c :: cs))) with _ | ⟨d, ds⟩
    · exact List.nil_sublist _
    · have hne : filterLines (parse_sections inc) (parse_sections exc) true
          (splitOnChar '\n' (c :: cs)) ≠ [] := by
        intro h0
        rw [h0] at hjo
        simp [joinLines] at hjo
      have hnl : ∀ l ∈ filterLines (parse_sections inc) (parse_sections exc) true
          (splitOnChar '\n' (c :: cs)), '\n' ∉ l := by
        intro l hl
        exact not_mem_of_mem_splitOnChar '\n' (c :: cs) l
          ((filterLines_sublist _ _ true _).subset hl)
      have h2 : linesOf (d :: ds) = splitOnChar '\n' (d :: ds) := rfl
      have h3 : linesOf (c :: cs) = splitOnChar '\n' (c :: cs) := rfl
      rw [h2, h3, ← hjo, splitOnChar_joinLines '\n' _ hne hnl]
      exact filterLines_sublist _ _ true _

/-- C5 (amended): `generate_output_filename` on `"https://docs.stripe.com"`
and format `"markdown"` returns `"docs-stripe-com.md"`: the domain already
contains `"docs"` so no `"docs-"` prefix is added, dots become hyphens,
the regex character class exempts hyphens from the non-word stripping (so
the hyphens survive), and `".md"` is appended. -/
theorem C5_output_filename :
    generate_output_filename "https://docs.stripe.com".toList "markdown".toList
      = some "docs-stripe-com.md".toList := by decide

/-- C5 counterexample: the claimed value `"docsstripe-com.md"` is not what
the code computes, because the regex character class exempts hyphens from
the stripping. -/
theorem C5_counterexample :
    generate_output_filename "https://docs.stripe.com".toList "markdown".toList
      ≠ some "docsstripe-com.md".toList := by decide

/-- C6 (amended): `format_results` joins the per-result texts with a
single newline character between consecutive results (a blank line
appears only when a text supplies its own trailing newline). -/
theorem C6_newline_join (r1 r2 : CrawlResult) (rs : List CrawlResult) (m : Bool) :
    format_results (r1 :: r2 :: rs) m
      = format_result m r1 ++ '\n' :: format_results (r2 :: rs) m := by
  rfl

/-- C6 counterexample: two results with bodies `"a"` and `"b"` (metadata
off) yield `"a\nb"`, with no empty line between the bodies, whereas the
claim mandates `"a\n\nb"`. -/
theorem C6_counterexample :
    format_results [⟨"a".toList, ⟨none, none, none, none⟩⟩,
        ⟨"b".toList, ⟨none, none, none, none⟩⟩] false = "a\nb".toList
      ∧ "a\nb".toList ≠ "a\n\nb".toList :=
  ⟨by decide, by decide⟩

/-- C7: with metadata enabled, formatting two results produces exactly the
first result's metadata header block (source URL, crawl timestamp, page
count, crawl strategy, then the `---` separator), its markdown body, the
joining newline, then the second result's metadata header block and body,
in input order. -/
theorem C7_metadata_blocks (r1 r2 : CrawlResult) :
    format_results [r1, r2] true
      = metadataHeader r1.crawl_metadata ++ r1.markdown
        ++ '\n' :: (metadataHeader r2.crawl_metadata ++ r2.markdown) := by
  simp [format_results, format_result, joinLines, List.append_assoc]

/-- C8: the inline cookie parser on `"a=1; b=2"` yields exactly the
records (name `"a"`, value `"1"`) and (name `"b"`, value `"2"`), each
with empty domain and path `"/"` and with whitespace-trimmed fields;
`"novalue;alsobad"` (all segments lacking `'='`) and the empty string
both yield `none`. -/
theorem C8_cookie_parsing :
    parse_cookies_inline "a=1; b=2".toList
        = some [⟨"a".toList, "1".toList, [], ['/']⟩, ⟨"b".toList, "2".toList, [], ['/']⟩]
      ∧ parse_cookies_inline "novalue;alsobad".toList = none
      ∧ parse_cookies_inline [] = none :=
  ⟨by decide, by decide, by decide⟩

/-- C9: `parse_auth_header` maps `"Authorization: Bearer xyz"` to the pair
(`"Authorization"`, `"Bearer xyz"`); it splits any input on the first
`':'` into the trimmed key and trimmed value; and on any non-empty input
without `':'` it returns `none` (the embedded function is total, so no
exception is raised). -/
theorem C9_auth_header :
    (parse_auth_header (some "Authorization: Bearer xyz".toList)
        = some ("Authorization".toList, "Bearer xyz".toList))
    ∧ (∀ a b : Str, ':' ∉ a →
        parse_auth_header (some (a ++ ':' :: b)) = some (pyStrip a, pyStrip b))
    ∧ (∀ s : Str, s ≠ [] → ':' ∉ s → parse_auth_header (some s) = none) := by
  refine ⟨by decide, ?_, ?_⟩
  · intro a b ha
    have hemp : (a ++ ':' :: b).isEmpty = false := by cases a <;> rfl
    have hpin : pyIn [':'] (a ++ ':' :: b) = true :=
      (pyIn_singleton ':' _).mpr (by simp)
    have hmemp : ∀ c ∈ a, (!(c == ':')) = true := by
      intro c hc
      simp only [Bool.not_eq_true', beq_eq_false_iff_ne]
      exact fun hh => ha (hh ▸ hc)
    have htake : (a ++ ':' :: b).takeWhile (fun c => !(c == ':')) = a :=
      takeWhile_append_cons _ ':' b a hmemp (by simp)
    have hdrop : (a ++ ':' :: b).dropWhile (fun c => !(c == ':')) = ':' :: b :=
      dropWhile_append_cons _ ':' b a hmemp (by simp)
    simp [parse_auth_header, hemp, hpin, htake, hdrop]
  · intro s hs hns
    have hemp : s.isEmpty = false := isEmpty_false_of_ne_nil hs
    have hpin : pyIn [':'] s = false := by
      rw [Bool.eq_false_iff]
      exact fun h => hns ((pyIn_singleton ':' s).mp h)
    simp [parse_auth_header, hemp, hpin]

/-- C9 witness: concrete runs of C9 through its split and no-colon cases,
with trimming visible. -/
theorem C9_auth_header_witness :
    parse_auth_header (some ("K ".toList ++ ':' :: " v".toList))
        = some ("K".toList, "v".toList)
      ∧ parse_auth_header (some "malformed".toList) = none := by
  constructor
  · have h := C9_auth_header.2.1 "K ".toList " v".toList (by decide)
    rw [h]
    decide
  · exact C9_auth_header.2.2 "malformed".toList (by decide) (by decide)

end DeepCrawl
